import Mathlib

/-!
Shallow embedding of the gocal repository (github.com/vsekhar/gocal) for
verification of its natural-language specification.

Modelling conventions:
* `time.Time` values are modelled as `Int` timestamps; `time.Time.Before`
  is strict `<`, `Equal` is `=`.  The `OrDie`/`intOrDie` parsers abort the
  process on malformed input, so all values reaching the core are already
  parsed; rooms therefore carry `Int` floor/section values directly.
* Go's `sort.Search` is embedded as `searchLoop` with an explicit fuel
  argument; fuel `n` always suffices because each iteration strictly
  shrinks the window `j - i`, and `sortSearch` supplies that fuel, so the
  embedding computes exactly what the Go binary search computes.
* Go slices are Lean lists; the parallel two-goroutine array shift in
  `Map.Add` is deterministic (the two goroutines touch disjoint slices and
  are joined before return), so it is embedded as the equivalent
  sequential insertion `take i ++ x :: drop i`.
* Go channels in `batch.Up` are modelled by an explicit availability
  schedule (one `Bool` per `select` probe: `true` means a receive case is
  ready — a value, or the closed channel once the input is exhausted —
  and `false` means the `default` branch fires).  An exhausted schedule
  behaves as always-ready, which drains the remaining input; every finite
  execution of the Go code performs finitely many probes and is therefore
  captured by some finite schedule.
* `float64` scores in `confidenceInFirst` are modelled as exact rationals;
  gonum's `stat.MeanStdDev` is the sample mean and the unbiased (`n-1`)
  standard deviation, and `stat.StdScore x mean σ = (x - mean)/σ`.  The
  comparison `score > 2.0` is rendered square-root-free:
  for `σ² > 0`, `(x-mean)/σ > 2 ↔ 0 < x-mean ∧ 4σ² < (x-mean)²`; for
  `σ² = 0` every element equals the mean so `x-mean = 0` and the float
  comparison `NaN > 2.0` is false, matching the model.
* Go's 64-bit `int` arithmetic in `distance` is embedded with explicit
  two's-complement wrapping (`wrap64`) on every arithmetic step;
  `math.MaxInt` is `2^63 - 1`.
* `strings.Contains` and `strings.ReplaceAll` are embedded at the
  character-list level (`goContains`, `goReplaceAll`); UTF-8 is
  self-synchronising so byte-level and character-level matching agree.
-/

namespace Gocal

/-! ### internal/interval/interval.go -/

structure Interval where
  start : Int
  stop : Int
deriving DecidableEq, Repr

/-- `Interval.Less` from interval.go: `i < j` iff `i.Start < j.Start`, or
`i.Start == j.Start` and `i.End < j.End`. -/
def Interval.Less (i j : Interval) : Bool :=
  if i.start < j.start then true
  else if i.start = j.start ∧ i.stop < j.stop then true
  else false

/-- `Interval.Overlaps` from interval.go: `j.Start < i.End && i.Start < j.End`. -/
def Interval.Overlaps (i j : Interval) : Bool :=
  if j.start < i.stop ∧ i.start < j.stop then true else false

/-- Go's `sort.Search` loop with explicit fuel.  One unfolding performs one
iteration of the loop `for i < j { h := (i+j)/2; if !f(h) { i = h+1 } else { j = h } }`. -/
def searchLoop (f : Nat → Bool) : Nat → Nat → Nat → Nat
  | 0, i, _ => i
  | fuel + 1, i, j =>
    if i < j then
      if f ((i + j) / 2) then searchLoop f fuel i ((i + j) / 2)
      else searchLoop f fuel ((i + j) / 2 + 1) j
    else i

/-- `sort.Search n f`: fuel `n` always suffices since the window shrinks
strictly each iteration, so this computes the Go loop's exact result. -/
def sortSearch (n : Nat) (f : Nat → Bool) : Nat :=
  searchLoop f n 0 n

/-- `interval.Map`: parallel slices of intervals and values. -/
structure Map (T : Type) where
  intervals : List Interval
  data : List T
deriving DecidableEq, Repr

def Map.empty {T : Type} : Map T := ⟨[], []⟩

def defaultInterval : Interval := ⟨0, 0⟩

/-- The insertion index computed by `Map.Add`: `sort.Search` over the
stored intervals with predicate `itr.Less(im.intervals[i])`. -/
def addIndex {T : Type} (m : Map T) (s e : Int) : Nat :=
  sortSearch m.intervals.length
    (fun k => Interval.Less ⟨s, e⟩ (m.intervals.getD k defaultInterval))

/-- `Map.Add` from interval.go: binary search for the insertion point with
predicate `itr.Less(im.intervals[i])`, then shift both slices and write the
new entry at the found index.  The two concurrent shifts are joined before
returning and touch disjoint slices, so they are embedded sequentially. -/
def Map.Add {T : Type} (m : Map T) (s e : Int) (t : T) : Map T :=
  { intervals := m.intervals.take (addIndex m s e) ++ ⟨s, e⟩ :: m.intervals.drop (addIndex m s e)
    data := m.data.take (addIndex m s e) ++ t :: m.data.drop (addIndex m s e) }

/-- The containment test `okFunc` from `Map.Covering`:
`!start.Before(intervals[i].Start) && !intervals[i].End.Before(end)`,
that is `intervals[i].Start <= start && end <= intervals[i].End`. -/
def coveringOk {T : Type} (m : Map T) (s e : Int) (k : Nat) : Bool :=
  let itv := m.intervals.getD k defaultInterval
  if ¬ s < itv.start ∧ ¬ itv.stop < e then true else false

/-- `Map.Covering` from interval.go: binary search on `okFunc`, return nil
if the search reaches the end, otherwise collect values while `okFunc`
holds.  The collection loop `for ; i < len; i++ { if !ok(i) break; append }`
is the `takeWhile` over the successive indices. -/
def Map.Covering {T : Type} [Inhabited T] (m : Map T) (s e : Int) : List T :=
  let n := m.intervals.length
  let i := sortSearch n (coveringOk m s e)
  if i = n then []
  else ((List.range' i (n - i)).takeWhile (coveringOk m s e)).map
    (fun k => m.data.getD k default)

/-- A map built from an initially empty `Map` by a sequence of `Add` calls. -/
def Map.ofOps {T : Type} (ops : List (Int × Int × T)) : Map T :=
  ops.foldl (fun m op => m.Add op.1 op.2.1 op.2.2) Map.empty

/-- Modelled from the spec's words, for comparison with the code's
`Map.Covering`: "returns exactly the subset of inserted values whose
interval contains `[s,e)`" — the values of all stored pairs whose interval
satisfies `interval.start <= s && e <= interval.end`. -/
def Map.coveringSpec {T : Type} (m : Map T) (s e : Int) : List T :=
  (m.intervals.zip m.data).filterMap
    (fun p => if p.1.start ≤ s ∧ e ≤ p.1.stop then some p.2 else none)

/-- Sortedness of the stored interval sequence: no later element is
`Less` than an earlier one. -/
def sortedIntervals (l : List Interval) : Prop :=
  l.Pairwise (fun a b => b.Less a = false)

/-! ### internal/batch (batch.Up) -/

/-- `batch.Up`, driven by an availability schedule: each list entry decides
one `select` probe (`true`: a receive case is ready — the next value, or
the close once `input` is empty; `false`: the `default` branch fires).
On `default` with a non-empty batch the batch is emitted; with an empty
batch a blocking receive is performed, which yields the next value or
observes the close.  An exhausted schedule behaves as always-ready and
drains the rest of the input into the current batch. -/
def upGo {T : Type} : List Bool → List T → List T → List (List T)
  | [], input, batch =>
    if (batch ++ input).isEmpty then [] else [batch ++ input]
  | ready :: sched, input, batch =>
    match input, ready with
    | v :: rest, true => upGo sched rest (batch ++ [v])
    | v :: rest, false =>
      if batch.isEmpty then upGo sched rest [v]
      else batch :: upGo sched (v :: rest) []
    | [], true => if batch.isEmpty then [] else [batch]
    | [], false =>
      if batch.isEmpty then [] else batch :: upGo sched [] []

/-- `batch.Up(values, batches)`: the batches emitted when the producer
delivers `input` under availability schedule `sched`. -/
def Up {T : Type} (sched : List Bool) (input : List T) : List (List T) :=
  upGo sched input []

/-! ### internal/itercal/foreach.go — confidenceInFirst -/

def minStdScore : ℚ := 2

/-- Sample mean (gonum `stat.Mean`). -/
def qMean (f : List ℚ) : ℚ := f.sum / (f.length : ℚ)

/-- Unbiased sample variance (square of gonum `stat.MeanStdDev`'s standard
deviation): `Σ (x - mean)² / (n - 1)`. -/
def qSampleVar (f : List ℚ) : ℚ :=
  (f.map (fun x => (x - qMean f) ^ 2)).sum / ((f.length : ℚ) - 1)

/-- `confidenceInFirst` from foreach.go.  `none` models the panic on an
empty score list.  A single hit is accepted unconditionally.  Otherwise
the z-score of `f[0]` against the sample mean/standard deviation must
exceed `minStdScore = 2.0`; the comparison is rendered without square
roots as explained in the file header. -/
def confidenceInFirst (f : List ℚ) : Option Bool :=
  if f.length = 0 then none
  else if f.length = 1 then some true
  else
    let mean := qMean f
    let sv := qSampleVar f
    let x := f.headD 0
    some (decide (0 < x - mean ∧ minStdScore ^ 2 * sv < (x - mean) ^ 2))

/-! ### cmd/gocal/main.go — data model -/

/-- A directory `CalendarResource`; floor/section values are carried
already parsed (`intOrDie` aborts on non-integer names). -/
structure Res where
  resourceEmail : String
  resourceCategory : String
  generatedResourceName : String
  floorName : Int
  floorSection : Int
deriving DecidableEq, Repr

def emptyRes : Res := ⟨"", "", "", 0, 0⟩

structure Attendee where
  email : String
  responseStatus : String
  resource : Bool
  self : Bool
deriving DecidableEq, Repr

/-- A calendar event; `startTime`/`endTime` are the parsed `DateTime`
timestamps, the remaining copied-through fields are kept opaque as
strings.  A zero field in a patch payload means "field not sent". -/
structure Event where
  summary : String
  description : String
  startTime : Int
  endTime : Int
  attendees : List Attendee
  attendeesOmitted : Bool
  attachments : String
  colorId : String
  conferenceData : String
  hangoutLink : String
  location : String
  transparency : String
  visibility : String
deriving DecidableEq, Repr

def emptyEvent : Event :=
  { summary := "", description := "", startTime := 0, endTime := 0
    attendees := [], attendeesOmitted := false, attachments := ""
    colorId := "", conferenceData := "", hangoutLink := ""
    location := "", transparency := "", visibility := "" }

def eventInterval (e : Event) : Interval := ⟨e.startTime, e.endTime⟩

def roomTag : String := "#room"

def roomTagDone : String := "#addedroom"

/-- Lexicographic comparison of character lists by code point; UTF-8 is
order-preserving, so this is Go's bytewise `<` on strings. -/
def charListLess : List Char → List Char → Bool
  | [], [] => false
  | [], _ :: _ => true
  | _ :: _, [] => false
  | a :: as, b :: bs =>
    if a.toNat < b.toNat then true
    else if b.toNat < a.toNat then false
    else charListLess as bs

/-- Go's `<` on strings. -/
def goStrLess (a b : String) : Bool := charListLess a.toList b.toList

/-- Does `pat` occur as a contiguous run in the list? -/
def listContains (pat : List Char) : List Char → Bool
  | [] => pat.isEmpty
  | c :: rest => pat.isPrefixOf (c :: rest) || listContains pat rest

/-- `strings.Contains`, at character level. -/
def goContains (s sub : String) : Bool := listContains sub.toList s.toList

/-- Left-to-right non-overlapping replacement over character lists; each
step either replaces a match of `pat` at the current position or moves one
character, so fuel `length + 1` always suffices (for the non-empty
patterns used here). -/
def replaceFuel (pat rep : List Char) : Nat → List Char → List Char
  | 0, s => s
  | _ + 1, [] => []
  | fuel + 1, c :: rest =>
    if pat.isPrefixOf (c :: rest) then
      rep ++ replaceFuel pat rep fuel ((c :: rest).drop pat.length)
    else c :: replaceFuel pat rep fuel rest

/-- `strings.ReplaceAll`. -/
def goReplaceAll (s pat rep : String) : String :=
  ⟨replaceFuel pat.toList rep.toList (s.toList.length + 1) s.toList⟩

/-! ### main.go — existing-booking lookup (lines 279–296) -/

/-- The inner attendee loop of the existing-booking lookup: for each
accepted resource attendee, `sort.Search` the catalog for the first index
whose email is `>= a.Email` (i.e. not `< a.Email`); if in range and the
found resource is a conference room, record it (last such attendee wins).
Note the source performs no equality check on the found email. -/
def findRoomFor (resources : List Res) : List Attendee → Option Res → Option Res
  | [], cur => cur
  | a :: rest, cur =>
    if ¬ a.resource = true ∨ ¬ a.responseStatus = "accepted" then
      findRoomFor resources rest cur
    else
      let i := sortSearch resources.length
        (fun k => ! goStrLess (resources.getD k emptyRes).resourceEmail a.email)
      if i < resources.length then
        let r := resources.getD i emptyRes
        if ¬ r.resourceCategory = "CONFERENCE_ROOM" then findRoomFor resources rest cur
        else findRoomFor resources rest (some r)
      else findRoomFor resources rest cur

/-- `roomsImGoingTo`: the per-event already-assigned room. -/
def roomsLookup (resources : List Res) (events : List Event) : List (Option Res) :=
  events.map (fun e => findRoomFor resources e.attendees none)

/-! ### main.go — booking effects (lines 382–433) -/

inductive CalAction where
  | insert (hold : Event)
  | patch (payload : Event)
deriving DecidableEq, Repr

/-- `&calendar.EventAttendee{Email: room.ResourceEmail}` — all other
fields zero. -/
def roomAttendeeFor (room : Res) : Attendee :=
  { email := room.resourceEmail, responseStatus := "", resource := false, self := false }

/-- The standalone room-hold event built in main.go. -/
def holdEvent (event : Event) (room : Res) : Event :=
  { summary := "Room for '" ++ goReplaceAll event.summary roomTag roomTagDone ++ "'"
    attachments := event.attachments
    attendees := [roomAttendeeFor room]
    colorId := event.colorId
    conferenceData := event.conferenceData
    description := goReplaceAll event.description roomTag roomTagDone
    hangoutLink := event.hangoutLink
    startTime := event.startTime
    endTime := event.endTime
    location := event.location
    transparency := event.transparency
    visibility := event.visibility
    attendeesOmitted := false }

/-- The patch that only replaces the room-request marker text in the
original event (all other fields zero, i.e. not sent). -/
def markerPatch (event : Event) : Event :=
  { emptyEvent with
    summary := goReplaceAll event.summary roomTag roomTagDone
    description := goReplaceAll event.description roomTag roomTagDone }

/-- The patch that appends the chosen room as an attendee of the original
event (all other fields zero, i.e. not sent). -/
def attendeePatch (event : Event) (room : Res) : Event :=
  { emptyEvent with attendees := event.attendees ++ [roomAttendeeFor room] }

/-- The calendar writes performed once a free `room` has been found for
`event` (main.go lines 382–433, dry-run disabled): if the attendee list
was truncated or the event carries the room-request marker, insert a
brand-new hold event, and additionally patch the original (marker text
only) exactly when the attendee list was not truncated; otherwise patch
the room into the original event's attendee list. -/
def bookActions (event : Event) (room : Res) : List CalAction :=
  if event.attendeesOmitted = true ∨ goContains event.summary roomTag = true
      ∨ goContains event.description roomTag = true then
    CalAction.insert (holdEvent event room) ::
      (if ¬ event.attendeesOmitted = true then [CalAction.patch (markerPatch event)] else [])
  else
    [CalAction.patch (attendeePatch event room)]

/-! ### main.go — distance (lines 450–475), with 64-bit wrapping -/

def wrap64 (x : Int) : Int := (x + 2 ^ 63) % 2 ^ 64 - 2 ^ 63

def wadd (x y : Int) : Int := wrap64 (x + y)

def wsub (x y : Int) : Int := wrap64 (x - y)

def wmul (x y : Int) : Int := wrap64 (x * y)

/-- Go's `abs` on `int`: negation of the minimum value wraps to itself. -/
def goAbs (x : Int) : Int := if x < 0 then wrap64 (-x) else x

/-- `math.MaxInt` on a 64-bit platform. -/
def goMaxInt : Int := 2 ^ 63 - 1

def firstChangeOfSection : Int := 5

def subsequentChangeOfSection : Int := 5

def subsequentChangeOfFloor : Int := 10

def firstChangeOfFloor : Int := firstChangeOfSection + subsequentChangeOfFloor

/-- `distance` from main.go: `math.MaxInt` if either operand is nil,
otherwise the sum of the floor and section change costs, every arithmetic
step performed in wrapping 64-bit integer arithmetic. -/
def distance : Option Res → Option Res → Int
  | none, _ => goMaxInt
  | some _, none => goMaxInt
  | some r1, some r2 =>
    let f1 := r1.floorName
    let f2 := r2.floorName
    let s1 := r1.floorSection
    let s2 := r2.floorSection
    let d0 : Int := 0
    let d1 := if f1 ≠ f2 then
        wadd (wadd d0 firstChangeOfFloor)
          (wmul (wsub (goAbs (wsub f1 f2)) 1) subsequentChangeOfFloor)
      else d0
    if s1 ≠ s2 then
      wadd (wadd d1 firstChangeOfSection)
        (wmul (wsub (goAbs (wsub s1 s2)) 1) subsequentChangeOfSection)
    else d1

/-! ### main.go — free/busy bulk fetch (lines 197–235) -/

/-- One returned free/busy calendar: its per-item error reasons and busy
periods. -/
structure FBCal where
  errors : List String
  busy : List Interval
deriving DecidableEq, Repr

/-- The per-calendar error loop: a `notFound` reason sets the omit flag
and continues; any other reason exits the process (modelled as
`Except.error reason`).  Returns whether the calendar is added to the
free/busy map. -/
def calLoop : Bool → List String → Except String Bool
  | notFound, [] => Except.ok (!notFound)
  | _, r :: rs => if r = "notFound" then calLoop true rs else Except.error r

/-- Process the calendars returned by one `Freebusy.Query` call. -/
def processCals : List (String × FBCal) → Except String (List (String × FBCal))
  | [] => Except.ok []
  | (em, cal) :: rest =>
    match calLoop false cal.errors with
    | Except.error r => Except.error r
    | Except.ok add =>
      match processCals rest with
      | Except.error r => Except.error r
      | Except.ok m => Except.ok (if add then (em, cal) :: m else m)

/-- The chunk boundaries of the fetch loop: `end := start + 20`, clamped
to the list length.  Fuel `res.length` suffices since `start` strictly
increases. -/
def chunkLoop {α : Type} (res : List α) : Nat → Nat → List (List α)
  | 0, _ => []
  | fuel + 1, start =>
    if start < res.length then
      ((res.drop start).take (min (start + 20) res.length - start)) ::
        chunkLoop res fuel (min (start + 20) res.length)
    else []

/-- The successive request chunks issued by the free/busy loop. -/
def fbChunks {α : Type} (res : List α) : List (List α) :=
  chunkLoop res res.length 0

/-- The free/busy fetch loop over resource emails `res`: query the oracle
`q` chunk by chunk and process each returned calendar. -/
def fbLoop (q : List String → List (String × FBCal)) (res : List String) :
    Nat → Nat → Except String (List (String × FBCal))
  | 0, _ => Except.ok []
  | fuel + 1, start =>
    if start < res.length then
      match processCals (q ((res.drop start).take (min (start + 20) res.length - start))) with
      | Except.error r => Except.error r
      | Except.ok m =>
        match fbLoop q res fuel (min (start + 20) res.length) with
        | Except.error r => Except.error r
        | Except.ok m2 => Except.ok (m ++ m2)
    else Except.ok []

def fetchFreeBusy (q : List String → List (String × FBCal))
    (res : List String) : Except String (List (String × FBCal)) :=
  fbLoop q res res.length 0

/-- Chunk-list form of the fetch loop, used to state that the loop
queries `q` exactly on the chunks of `fbChunks`. -/
def processChunks (q : List String → List (String × FBCal)) :
    List (List String) → Except String (List (String × FBCal))
  | [] => Except.ok []
  | c :: cs =>
    match processCals (q c) with
    | Except.error r => Except.error r
    | Except.ok m =>
      match processChunks q cs with
      | Except.error r => Except.error r
      | Except.ok m2 => Except.ok (m ++ m2)

/-! ### main.go — the assignment scan (lines 316–436) -/

/-- The candidate walk `rooms:` — take the first ranked room whose
free/busy calendar is present and has no busy period overlapping the
event's interval; a missing free/busy calendar skips the room. -/
def tryRooms (freeBusy : String → Option (List Interval)) (resources : List Res)
    (ev : Event) : List Nat → Option Res
  | [] => none
  | idx :: rest =>
    let room := resources.getD idx emptyRes
    match freeBusy room.resourceEmail with
    | none => tryRooms freeBusy resources ev rest
    | some busy =>
      if busy.any (fun b => (eventInterval ev).Overlaps b) then
        tryRooms freeBusy resources ev rest
      else some room

structure ScanResult where
  trace : List (Nat × Option Res × Option Res)
  bookings : List (Nat × String)
deriving DecidableEq, Repr

/-- `prevRoom`: unconditionally `roomsImGoingTo[i-1]` when `i > 0` (which
may itself be nil), else nil. -/
def scanPrev (rooms : List (Option Res)) (i : Nat) : Option Res :=
  if 0 < i then rooms.getD (i - 1) none else none

/-- `nextRoom`: `roomsImGoingTo[i+1]` only when `i < len-1` and that entry
is non-nil, else nil. -/
def scanNext (rooms : List (Option Res)) (i : Nat) : Option Res :=
  if i < rooms.length - 1 ∧ (rooms.getD (i + 1) none).isSome = true then
    rooms.getD (i + 1) none
  else none

/-- One iteration of the assignment scan: skip events that already have a
room; otherwise record the `(index, prevRoom, nextRoom)` used and the
booking made, if any. -/
def scanStep (rank : Option Res → Option Res → List Nat)
    (freeBusy : String → Option (List Interval))
    (resources : List Res) (events : List Event)
    (rooms : List (Option Res)) (acc : ScanResult) (i : Nat) : ScanResult :=
  if (rooms.getD i none).isSome = true then acc
  else
    { trace := acc.trace ++ [(i, scanPrev rooms i, scanNext rooms i)]
      bookings := acc.bookings ++
        (match tryRooms freeBusy resources (events.getD i emptyEvent)
            (rank (scanPrev rooms i) (scanNext rooms i)) with
         | some r => [(i, r.resourceEmail)]
         | none => []) }

/-- The single forward assignment scan of main.go.  `rank prev next`
abstracts the `sort.Slice` ranking (the permutation of catalog indices it
produces for the given neighbour rooms).  As in the source,
`roomsImGoingTo` is read but never written inside the loop (updating it is
left as a TODO in main.go), and the booking writes (attendee append,
calendar inserts/patches) do not feed back into later iterations' neighbour
computation. -/
def runScan (rank : Option Res → Option Res → List Nat)
    (freeBusy : String → Option (List Interval))
    (resources : List Res) (events : List Event)
    (rooms : List (Option Res)) : ScanResult :=
  (List.range rooms.length).foldl
    (scanStep rank freeBusy resources events rooms) ⟨[], []⟩

/-! ## Helper lemmas: binary search -/

theorem searchLoop_bounds (f : Nat → Bool) :
    ∀ (fuel i j : Nat), i ≤ j →
      i ≤ searchLoop f fuel i j ∧ searchLoop f fuel i j ≤ j := by
  intro fuel
  induction fuel with
  | zero => intro i j hij; exact ⟨Nat.le_refl i, hij⟩
  | succ n ih =>
    intro i j hij
    simp only [searchLoop]
    split
    · next hlt =>
      split
      · have h := ih i ((i + j) / 2) (by omega)
        omega
      · have h := ih ((i + j) / 2 + 1) j (by omega)
        omega
    · exact ⟨Nat.le_refl i, hij⟩

theorem searchLoop_found (f : Nat → Bool) :
    ∀ (fuel i j : Nat), j - i ≤ fuel → i ≤ j →
      searchLoop f fuel i j < j → f (searchLoop f fuel i j) = true := by
  intro fuel
  induction fuel with
  | zero =>
    intro i j hf hij hr
    rw [searchLoop] at hr
    omega
  | succ n ih =>
    intro i j hf hij hr
    by_cases hlt : i < j
    · by_cases hmid : f ((i + j) / 2) = true
      · rw [searchLoop, if_pos hlt, if_pos hmid] at hr ⊢
        rcases Nat.lt_or_ge (searchLoop f n i ((i + j) / 2)) ((i + j) / 2) with h | h
        · exact ih i ((i + j) / 2) (by omega) (by omega) h
        · have hb := searchLoop_bounds f n i ((i + j) / 2) (by omega)
          have heq : searchLoop f n i ((i + j) / 2) = (i + j) / 2 := by omega
          rw [heq]
          exact hmid
      · rw [searchLoop, if_pos hlt, if_neg hmid] at hr ⊢
        exact ih ((i + j) / 2 + 1) j (by omega) (by omega) hr
    · rw [searchLoop, if_neg hlt] at hr
      omega

theorem searchLoop_not_below (f : Nat → Bool) (n : Nat)
    (mono : ∀ a b, a ≤ b → b < n → f a = true → f b = true) :
    ∀ (fuel i j : Nat), j ≤ n →
      ∀ k, i ≤ k → k < searchLoop f fuel i j → f k = false := by
  intro fuel
  induction fuel with
  | zero =>
    intro i j hjn k hik hk
    rw [searchLoop] at hk
    omega
  | succ m ih =>
    intro i j hjn k hik hk
    by_cases hlt : i < j
    · by_cases hmid : f ((i + j) / 2) = true
      · rw [searchLoop, if_pos hlt, if_pos hmid] at hk
        exact ih i ((i + j) / 2) (by omega) k hik hk
      · rw [searchLoop, if_pos hlt, if_neg hmid] at hk
        have hfalse : f ((i + j) / 2) = false := by
          cases hfk : f ((i + j) / 2)
          · rfl
          · exact absurd hfk hmid
        rcases Nat.lt_or_ge k ((i + j) / 2 + 1) with h | h
        · rcases Nat.lt_or_ge k ((i + j) / 2) with h2 | h2
          · by_contra hcon
            have hktrue : f k = true := by
              cases hfk : f k
              · exact absurd hfk hcon
              · rfl
            have hmono := mono k ((i + j) / 2) (by omega) (by omega) hktrue
            rw [hmono] at hfalse
            exact Bool.noConfusion hfalse
          · have hkeq : k = (i + j) / 2 := by omega
            rw [hkeq]
            exact hfalse
        · exact ih ((i + j) / 2 + 1) j hjn k h hk
    · rw [searchLoop, if_neg hlt] at hk
      omega

theorem sortSearch_le (n : Nat) (f : Nat → Bool) : sortSearch n f ≤ n :=
  (searchLoop_bounds f n 0 n (Nat.zero_le n)).2

theorem sortSearch_found (n : Nat) (f : Nat → Bool) (h : sortSearch n f < n) :
    f (sortSearch n f) = true :=
  searchLoop_found f n 0 n (by omega) (Nat.zero_le n) h

theorem sortSearch_not_below (n : Nat) (f : Nat → Bool)
    (mono : ∀ a b, a ≤ b → b < n → f a = true → f b = true) :
    ∀ k, k < sortSearch n f → f k = false :=
  fun k hk => searchLoop_not_below f n mono n 0 n (Nat.le_refl n) k (Nat.zero_le k) hk

/-! ## Helper lemmas: the interval strict order -/

theorem less_iff (a b : Interval) :
    a.Less b = true ↔ a.start < b.start ∨ (a.start = b.start ∧ a.stop < b.stop) := by
  unfold Interval.Less
  split_ifs with h1 h2 <;> simp <;> omega

theorem less_eq_false_iff (a b : Interval) :
    a.Less b = false ↔ ¬ (a.start < b.start ∨ (a.start = b.start ∧ a.stop < b.stop)) := by
  rw [← less_iff]
  cases h : a.Less b <;> simp

theorem less_asymm {a b : Interval} (h : a.Less b = true) : b.Less a = false := by
  rw [less_iff] at h
  rw [less_eq_false_iff]
  omega

theorem less_irrefl (a : Interval) : a.Less a = false := by
  rw [less_eq_false_iff]
  omega

theorem less_nlt_trans {a b c : Interval} (h1 : a.Less b = true) (h2 : c.Less b = false) :
    a.Less c = true := by
  rw [less_iff] at h1 ⊢
  rw [less_eq_false_iff] at h2
  omega

theorem getD_eq_getElem {α : Type} (l : List α) (d : α) (k : Nat) (h : k < l.length) :
    l.getD k d = l[k] := by
  rw [List.getD_eq_getElem?_getD, List.getElem?_eq_getElem h, Option.getD_some]

/-! ## Helper lemmas: sorted insertion -/

theorem sorted_insert_at (l : List Interval) (itr : Interval) (h : sortedIntervals l)
    (r : Nat)
    (hbelow : ∀ k, k < r → itr.Less (l.getD k defaultInterval) = false)
    (hfound : r < l.length → itr.Less (l.getD r defaultInterval) = true) :
    sortedIntervals (l.take r ++ itr :: l.drop r) := by
  unfold sortedIntervals at h ⊢
  rw [List.pairwise_append]
  refine ⟨h.sublist (List.take_sublist r l), ?_, ?_⟩
  · rw [List.pairwise_cons]
    refine ⟨?_, h.sublist (List.drop_sublist r l)⟩
    intro b hb
    rw [List.mem_iff_getElem] at hb
    obtain ⟨j, hj, hbe⟩ := hb
    have hrj : r + j < l.length := by
      rw [List.length_drop] at hj
      omega
    have hrlen : r < l.length := by omega
    have hbeq : b = l[r + j] := by
      rw [← hbe, List.getElem_drop]
    have hfr : itr.Less (l.getD r defaultInterval) = true := hfound hrlen
    rw [getD_eq_getElem l defaultInterval r hrlen] at hfr
    have hle : (l[r + j]).Less l[r] = false := by
      by_cases hj0 : j = 0
      · subst hj0
        simp only [Nat.add_zero]
        exact less_irrefl _
      · exact List.pairwise_iff_getElem.mp h r (r + j) hrlen hrj (by omega)
    have hlt : itr.Less b = true := by
      rw [hbeq]
      exact less_nlt_trans hfr hle
    exact less_asymm hlt
  · intro a ha b hb
    rw [List.mem_iff_getElem] at ha
    obtain ⟨k, hk, hae⟩ := ha
    have hkr : k < r := by
      rw [List.length_take] at hk
      omega
    have hklen : k < l.length := by
      rw [List.length_take] at hk
      omega
    have haeq : a = l[k] := by
      rw [← hae, List.getElem_take]
    rcases List.mem_cons.mp hb with hbi | hbd
    · subst hbi
      have hb := hbelow k hkr
      rw [getD_eq_getElem l _ k hklen] at hb
      rw [haeq]
      exact hb
    · rw [List.mem_iff_getElem] at hbd
      obtain ⟨j, hj, hbe⟩ := hbd
      have hrj : r + j < l.length := by
        rw [List.length_drop] at hj
        omega
      have hbeq : b = l[r + j] := by
        rw [← hbe, List.getElem_drop]
      rw [haeq, hbeq]
      exact List.pairwise_iff_getElem.mp h k (r + j) hklen hrj (by omega)

theorem addIndex_mono {T : Type} (m : Map T) (h : sortedIntervals m.intervals) (s e : Int) :
    ∀ a b, a ≤ b → b < m.intervals.length →
      Interval.Less ⟨s, e⟩ (m.intervals.getD a defaultInterval) = true →
      Interval.Less ⟨s, e⟩ (m.intervals.getD b defaultInterval) = true := by
  intro a b hab hb hfa
  rcases Nat.eq_or_lt_of_le hab with heq | hlt
  · subst heq
    exact hfa
  · have halen : a < m.intervals.length := by omega
    rw [getD_eq_getElem _ _ a halen] at hfa
    rw [getD_eq_getElem _ _ b hb]
    have hba := List.pairwise_iff_getElem.mp h a b halen hb hlt
    exact less_nlt_trans hfa hba

theorem sortedIntervals_Add {T : Type} (m : Map T) (h : sortedIntervals m.intervals)
    (s e : Int) (t : T) : sortedIntervals (m.Add s e t).intervals := by
  have hAdd : (m.Add s e t).intervals =
      m.intervals.take (addIndex m s e) ++
        (⟨s, e⟩ : Interval) :: m.intervals.drop (addIndex m s e) := rfl
  rw [hAdd]
  refine sorted_insert_at m.intervals ⟨s, e⟩ h (addIndex m s e) ?_ ?_
  · intro k hk
    exact sortSearch_not_below _ _ (addIndex_mono m h s e) k hk
  · intro hr
    exact sortSearch_found _ _ hr

theorem foldl_add_sorted {T : Type} :
    ∀ (ops : List (Int × Int × T)) (m : Map T), sortedIntervals m.intervals →
      sortedIntervals (ops.foldl (fun m op => m.Add op.1 op.2.1 op.2.2) m).intervals := by
  intro ops
  induction ops with
  | nil => intro m hm; exact hm
  | cons op rest ih =>
    intro m hm
    exact ih (m.Add op.1 op.2.1 op.2.2) (sortedIntervals_Add m hm _ _ _)

theorem Add_lengths {T : Type} (m : Map T) (hlen : m.intervals.length = m.data.length)
    (s e : Int) (t : T) :
    (m.Add s e t).intervals.length = m.intervals.length + 1 ∧
    (m.Add s e t).data.length = m.data.length + 1 := by
  have hr : addIndex m s e ≤ m.intervals.length := sortSearch_le _ _
  have h1 : (m.Add s e t).intervals.length =
      (m.intervals.take (addIndex m s e)).length + (1 + (m.intervals.drop (addIndex m s e)).length) := by
    show (_ ++ _ :: _).length = _
    rw [List.length_append, List.length_cons]
    omega
  have h2 : (m.Add s e t).data.length =
      (m.data.take (addIndex m s e)).length + (1 + (m.data.drop (addIndex m s e)).length) := by
    show (_ ++ _ :: _).length = _
    rw [List.length_append, List.length_cons]
    omega
  rw [List.length_take, List.length_drop] at h1 h2
  constructor
  · omega
  · omega

theorem foldl_add_len_eq {T : Type} :
    ∀ (ops : List (Int × Int × T)) (m : Map T), m.intervals.length = m.data.length →
      (ops.foldl (fun m op => m.Add op.1 op.2.1 op.2.2) m).intervals.length =
      (ops.foldl (fun m op => m.Add op.1 op.2.1 op.2.2) m).data.length := by
  intro ops
  induction ops with
  | nil => intro m hm; exact hm
  | cons op rest ih =>
    intro m hm
    have h := Add_lengths m hm op.1 op.2.1 op.2.2
    exact ih (m.Add op.1 op.2.1 op.2.2) (by omega)

theorem ofOps_len_eq {T : Type} (ops : List (Int × Int × T)) :
    (Map.ofOps ops).intervals.length = (Map.ofOps ops).data.length :=
  foldl_add_len_eq ops Map.empty rfl

/-! ## Claim C7 -/

/-- C7: after every sequence of `Add(start, end, value)` calls on an
initially empty `IntervalMap`, the stored sequence of intervals is sorted
according to the `Less` ordering (`a < b` iff `a.start < b.start`, or
`a.start == b.start` and `a.end < b.end`): no stored interval is `Less`
than one stored before it. -/
theorem ofOps_intervals_sorted {T : Type} (ops : List (Int × Int × T)) :
    sortedIntervals (Map.ofOps ops).intervals :=
  foldl_add_sorted ops Map.empty List.Pairwise.nil

/-! ## Claim C10 -/

/-- C10: every `Map.Add` call on a map built by `Add` calls grows both
internal sequences by exactly one element and preserves
`len(intervals) == len(data)`; the interval and the value are inserted at
the same position `i`, so the value at position `i` is the one associated
with the interval at position `i` and every index `Covering` reads has
both a stored interval and an aligned value. -/
theorem add_grows_aligned {T : Type} (ops : List (Int × Int × T)) (s e : Int) (v : T) :
    (Map.ofOps ops).intervals.length = (Map.ofOps ops).data.length ∧
    ((Map.ofOps ops).Add s e v).intervals.length = (Map.ofOps ops).intervals.length + 1 ∧
    ((Map.ofOps ops).Add s e v).data.length = (Map.ofOps ops).data.length + 1 ∧
    ∃ i, i ≤ (Map.ofOps ops).intervals.length ∧
      ((Map.ofOps ops).Add s e v).intervals =
        (Map.ofOps ops).intervals.take i ++ ⟨s, e⟩ :: (Map.ofOps ops).intervals.drop i ∧
      ((Map.ofOps ops).Add s e v).data =
        (Map.ofOps ops).data.take i ++ v :: (Map.ofOps ops).data.drop i := by
  have hlen := ofOps_len_eq ops
  have hgrow := Add_lengths (Map.ofOps ops) hlen s e v
  exact ⟨hlen, hgrow.1, hgrow.2,
    addIndex (Map.ofOps ops) s e, sortSearch_le _ _, rfl, rfl⟩

/-! ## Claim C1 -/

/-- C1 (code bug): `Covering` does not return all inserted values whose
interval contains the query range.  On the map built by `Add(0,10,0)` then
`Add(5,6,1)`, the query `Covering(5,8)` returns the empty sequence even
though the stored interval `[0,10)` of value `0` fully contains `[5,8)`
(the spec-side `coveringSpec` returns `[0]`): the binary search lands on
index 1, whose interval fails the containment test, and the containing
interval at index 0 is never examined. -/
theorem covering_misses_containing_interval :
    (Map.ofOps [((0 : Int), (10 : Int), (0 : Nat)), (5, 6, 1)]).Covering 5 8 = [] ∧
    (Map.ofOps [((0 : Int), (10 : Int), (0 : Nat)), (5, 6, 1)]).coveringSpec 5 8 = [0] := by
  constructor
  · rfl
  · rfl

/-! ## Claim C3 -/

theorem qMean_50_2_1 : qMean [50, 2, 1] = 53 / 3 := by
  unfold qMean
  simp only [List.sum_cons, List.sum_nil, List.length_cons, List.length_nil]
  norm_num

theorem qSampleVar_50_2_1 : qSampleVar [50, 2, 1] = 2353 / 3 := by
  unfold qSampleVar
  rw [qMean_50_2_1]
  simp only [List.map_cons, List.map_nil, List.sum_cons, List.sum_nil,
    List.length_cons, List.length_nil]
  norm_num

theorem confidence_50_2_1_eval : confidenceInFirst [50, 2, 1] = some false := by
  unfold confidenceInFirst
  rw [if_neg (by decide : ¬ ([50, 2, 1] : List ℚ).length = 0),
    if_neg (by decide : ¬ ([50, 2, 1] : List ℚ).length = 1)]
  simp only [List.headD_cons]
  refine congrArg some ?_
  rw [decide_eq_false_iff_not]
  intro h
  rcases h with ⟨h1, h2⟩
  rw [qMean_50_2_1, qSampleVar_50_2_1] at h2
  norm_num [minStdScore] at h2

/-- C3 counterexample: on the score list `[50.0, 2.0, 1.0]` the
disambiguation scorer does not accept the top hit — `confidenceInFirst`
returns `false`, because the top hit's z-score (≈ 1.15) does not exceed
the 2.0 standard-deviation threshold. -/
theorem confidence_rejects_50_2_1 : confidenceInFirst [50, 2, 1] = some false :=
  confidence_50_2_1_eval

/-- C3 amended: on `[50.0, 2.0, 1.0]` (more than one hit) the scorer
computes the z-score of the top score against the sample mean `53/3` and
the sample standard deviation (sample variance `2353/3`), finds it below
the 2.0 standard-deviation threshold (`(50 - 53/3)² < 2² · (2353/3)`),
and rejects the top hit, so the search reports an ambiguity error instead
of returning the top id. -/
theorem confidence_50_2_1_below_threshold :
    qMean [50, 2, 1] = 53 / 3 ∧
    qSampleVar [50, 2, 1] = 2353 / 3 ∧
    ((50 : ℚ) - qMean [50, 2, 1]) ^ 2 < minStdScore ^ 2 * qSampleVar [50, 2, 1] ∧
    confidenceInFirst [50, 2, 1] = some false := by
  refine ⟨qMean_50_2_1, qSampleVar_50_2_1, ?_, confidence_50_2_1_eval⟩
  rw [qMean_50_2_1, qSampleVar_50_2_1]
  norm_num [minStdScore]

/-! ## Claim C4 -/

theorem upGo_flatten {T : Type} :
    ∀ (sched : List Bool) (input batch : List T),
      (upGo sched input batch).flatten = batch ++ input := by
  intro sched
  induction sched with
  | nil =>
    intro input batch
    simp only [upGo]
    by_cases h : (batch ++ input).isEmpty
    · rw [if_pos h, List.isEmpty_iff.mp h]
      rfl
    · rw [if_neg h]
      simp
  | cons ready sched ih =>
    intro input batch
    match input, ready with
    | v :: rest, true =>
      simp only [upGo, ih]
      simp
    | v :: rest, false =>
      by_cases hb : batch.isEmpty
      · simp only [upGo, if_pos hb, ih]
        rw [List.isEmpty_iff.mp hb]
        rfl
      · simp only [upGo, if_neg hb, List.flatten_cons, ih]
        simp
    | [], true =>
      by_cases hb : batch.isEmpty
      · simp only [upGo, if_pos hb]
        rw [List.isEmpty_iff.mp hb]
        rfl
      · simp only [upGo, if_neg hb]
        simp
    | [], false =>
      by_cases hb : batch.isEmpty
      · simp only [upGo, if_pos hb]
        rw [List.isEmpty_iff.mp hb]
        rfl
      · simp only [upGo, if_neg hb, List.flatten_cons, ih]
        simp

theorem upGo_nonempty {T : Type} :
    ∀ (sched : List Bool) (input batch : List T),
      ∀ b ∈ upGo sched input batch, b ≠ [] := by
  intro sched
  induction sched with
  | nil =>
    intro input batch b hb
    simp only [upGo] at hb
    by_cases h : (batch ++ input).isEmpty
    · rw [if_pos h] at hb
      exact absurd hb (List.not_mem_nil b)
    · rw [if_neg h] at hb
      rcases List.mem_singleton.mp hb with rfl
      intro hc
      rw [hc] at h
      exact h rfl
  | cons ready sched ih =>
    intro input batch b hb
    match input, ready with
    | v :: rest, true =>
      simp only [upGo] at hb
      exact ih rest (batch ++ [v]) b hb
    | v :: rest, false =>
      by_cases hbe : batch.isEmpty
      · simp only [upGo, if_pos hbe] at hb
        exact ih rest [v] b hb
      · simp only [upGo, if_neg hbe] at hb
        rcases List.mem_cons.mp hb with rfl | hmem
        · intro hc
          rw [hc] at hbe
          exact hbe rfl
        · exact ih (v :: rest) [] b hmem
    | [], true =>
      by_cases hbe : batch.isEmpty
      · simp only [upGo, if_pos hbe] at hb
        exact absurd hb (List.not_mem_nil b)
      · simp only [upGo, if_neg hbe] at hb
        rcases List.mem_singleton.mp hb with rfl
        intro hc
        rw [hc] at hbe
        exact hbe rfl
    | [], false =>
      by_cases hbe : batch.isEmpty
      · simp only [upGo, if_pos hbe] at hb
        exact absurd hb (List.not_mem_nil b)
      · simp only [upGo, if_neg hbe] at hb
        rcases List.mem_cons.mp hb with rfl | hmem
        · intro hc
          rw [hc] at hbe
          exact hbe rfl
        · exact ih [] [] b hmem

/-- C4: for every finite input sequence fed to `batch.Up` under any
producer availability schedule, the concatenation of all emitted batches,
in emission order, equals the input sequence in order, and every emitted
batch is non-empty. -/
theorem batch_up_order_and_nonempty {T : Type} (sched : List Bool) (input : List T) :
    (Up sched input).flatten = input ∧ ∀ b ∈ Up sched input, b ≠ [] :=
  ⟨upGo_flatten sched input [], upGo_nonempty sched input []⟩

/-- C4 witness: a concrete run — schedule `[true, false, true]` on input
`[1, 2, 3]` — whose emitted batches concatenate back to the input, with a
concrete emitted batch that is non-empty. -/
theorem batch_up_order_and_nonempty_witness :
    (Up [true, false, true] [1, 2, 3]).flatten = [1, 2, 3] ∧ [1] ≠ ([] : List Nat) :=
  ⟨(batch_up_order_and_nonempty [true, false, true] [1, 2, 3]).1,
   (batch_up_order_and_nonempty [true, false, true] [1, 2, 3]).2 [1] (by decide)⟩

/-! ## Claim C5 -/

/-- C5 (code bug): the existing-booking lookup performs a binary search
for the first catalog email `>= attendee email` but never checks the
found email for equality.  At the failing input — a catalog holding only
the conference room `b@example.com` and an event whose accepted resource
attendee has email `a@example.com`, which is not present in the catalog —
the lookup records the room `b@example.com` as the event's
already-assigned room, whereas the claim (and the evident intent of a
lookup) requires that an attendee email not present in the catalog yield
no already-assigned room. -/
theorem room_lookup_matches_nonequal_email :
    roomsLookup [⟨"b@example.com", "CONFERENCE_ROOM", "RoomB", 1, 1⟩]
      [{ emptyEvent with attendees := [⟨"a@example.com", "accepted", true, false⟩] }] =
      [some ⟨"b@example.com", "CONFERENCE_ROOM", "RoomB", 1, 1⟩] ∧
    ("a@example.com" : String) ≠ "b@example.com" := by
  constructor
  · decide
  · decide

/-! ## Claim C6 -/

/-- C6: when a free room is found for an event that carries the
room-request marker or whose attendee list was truncated by the data
source, the engine inserts a brand-new standalone room-hold event on the
room's calendar — copying summary, attachments, conference data, location
and times, with the room-request marker replaced by the done marker and
the room as sole attendee — instead of mutating the original event; the
original event is additionally patched, with a payload carrying only the
marker-replaced summary and description, exactly when the attendee list
was not truncated; and no write touches the original event when it was
truncated. -/
theorem booking_hold_and_patch (event : Event) (room : Res)
    (h : event.attendeesOmitted = true ∨ goContains event.summary roomTag = true
        ∨ goContains event.description roomTag = true) :
    bookActions event room =
      CalAction.insert (holdEvent event room) ::
        (if event.attendeesOmitted = true then []
         else [CalAction.patch (markerPatch event)]) ∧
    (holdEvent event room).summary =
      "Room for '" ++ goReplaceAll event.summary roomTag roomTagDone ++ "'" ∧
    (holdEvent event room).description = goReplaceAll event.description roomTag roomTagDone ∧
    (holdEvent event room).attachments = event.attachments ∧
    (holdEvent event room).conferenceData = event.conferenceData ∧
    (holdEvent event room).location = event.location ∧
    (holdEvent event room).startTime = event.startTime ∧
    (holdEvent event room).endTime = event.endTime ∧
    (holdEvent event room).attendees = [roomAttendeeFor room] ∧
    (markerPatch event).summary = goReplaceAll event.summary roomTag roomTagDone ∧
    (markerPatch event).description = goReplaceAll event.description roomTag roomTagDone ∧
    (markerPatch event).attendees = [] ∧
    (markerPatch event).attachments = "" ∧
    (markerPatch event).conferenceData = "" ∧
    (markerPatch event).location = "" ∧
    (event.attendeesOmitted = true →
      bookActions event room = [CalAction.insert (holdEvent event room)]) := by
  have hact : bookActions event room =
      CalAction.insert (holdEvent event room) ::
        (if event.attendeesOmitted = true then []
         else [CalAction.patch (markerPatch event)]) := by
    unfold bookActions
    rw [if_pos h]
    cases homit : event.attendeesOmitted
    · simp
    · simp
  refine ⟨hact, rfl, rfl, rfl, rfl, rfl, rfl, rfl, rfl, rfl, rfl, rfl, rfl, rfl, rfl, ?_⟩
  intro homit
  rw [hact, homit]
  simp

/-- C6 witness: a concrete event whose attendee list was truncated — the
booking performs exactly one write, the insertion of the new hold event;
the original event is not patched. -/
theorem booking_hold_and_patch_witness :
    bookActions { emptyEvent with attendeesOmitted := true }
        ⟨"r1@x", "CONFERENCE_ROOM", "R1", 1, 1⟩ =
      [CalAction.insert (holdEvent { emptyEvent with attendeesOmitted := true }
        ⟨"r1@x", "CONFERENCE_ROOM", "R1", 1, 1⟩)] := by
  obtain ⟨-, -, -, -, -, -, -, -, -, -, -, -, -, -, -, himp⟩ :=
    booking_hold_and_patch { emptyEvent with attendeesOmitted := true }
      ⟨"r1@x", "CONFERENCE_ROOM", "R1", 1, 1⟩ (Or.inl rfl)
  exact himp rfl

/-! ## Claim C8 -/

theorem goAbs_wsub_comm (a b : Int) : goAbs (wsub a b) = goAbs (wsub b a) := by
  unfold goAbs wsub wrap64
  have e1 : (2 : Int) ^ 63 = 9223372036854775808 := by norm_num
  have e2 : (2 : Int) ^ 64 = 18446744073709551616 := by norm_num
  rw [e1, e2]
  have hab : b - a = -(a - b) := by ring
  rw [hab]
  generalize a - b = d
  split_ifs <;> omega

theorem distance_self (r : Res) : distance (some r) (some r) = 0 := by
  simp [distance]

theorem distance_comm (a b : Option Res) : distance a b = distance b a := by
  match a, b with
  | none, none => rfl
  | none, some r => rfl
  | some r, none => rfl
  | some r1, some r2 =>
    by_cases hf : r1.floorName = r2.floorName
    · by_cases hs : r1.floorSection = r2.floorSection
      · have hf2 : ¬ (r1.floorName ≠ r2.floorName) := fun hc => hc hf
        have hf3 : ¬ (r2.floorName ≠ r1.floorName) := fun hc => hc hf.symm
        have hs2 : ¬ (r1.floorSection ≠ r2.floorSection) := fun hc => hc hs
        have hs3 : ¬ (r2.floorSection ≠ r1.floorSection) := fun hc => hc hs.symm
        simp only [distance, if_neg hf2, if_neg hf3, if_neg hs2, if_neg hs3]
      · have hf2 : ¬ (r1.floorName ≠ r2.floorName) := fun hc => hc hf
        have hf3 : ¬ (r2.floorName ≠ r1.floorName) := fun hc => hc hf.symm
        have hs3 : r2.floorSection ≠ r1.floorSection := fun hc => hs hc.symm
        simp only [distance, if_neg hf2, if_neg hf3, if_pos hs, if_pos hs3]
        rw [goAbs_wsub_comm r1.floorSection r2.floorSection]
    · by_cases hs : r1.floorSection = r2.floorSection
      · have hf3 : r2.floorName ≠ r1.floorName := fun hc => hf hc.symm
        have hs2 : ¬ (r1.floorSection ≠ r2.floorSection) := fun hc => hc hs
        have hs3 : ¬ (r2.floorSection ≠ r1.floorSection) := fun hc => hc hs.symm
        simp only [distance, if_pos hf, if_pos hf3, if_neg hs2, if_neg hs3]
        rw [goAbs_wsub_comm r1.floorName r2.floorName]
      · have hf3 : r2.floorName ≠ r1.floorName := fun hc => hf hc.symm
        have hs3 : r2.floorSection ≠ r1.floorSection := fun hc => hs hc.symm
        simp only [distance, if_pos hf, if_pos hf3, if_pos hs, if_pos hs3]
        rw [goAbs_wsub_comm r1.floorName r2.floorName,
          goAbs_wsub_comm r1.floorSection r2.floorSection]

theorem distance_nil (a : Option Res) :
    distance none a = goMaxInt ∧ distance a none = goMaxInt := by
  cases a
  · exact ⟨rfl, rfl⟩
  · exact ⟨rfl, rfl⟩

theorem goAbs_wsub_diff_two (f1 f2 : Int) (hf : f1 - f2 = 2 ∨ f1 - f2 = -2) :
    goAbs (wsub f1 f2) = 2 := by
  unfold goAbs wsub wrap64
  have e1 : (2 : Int) ^ 63 = 9223372036854775808 := by norm_num
  have e2 : (2 : Int) ^ 64 = 18446744073709551616 := by norm_num
  rw [e1, e2]
  rcases hf with h | h <;> rw [h] <;> split_ifs <;> omega

theorem goAbs_wsub_diff_one (f1 f2 : Int) (hf : f1 - f2 = 1 ∨ f1 - f2 = -1) :
    goAbs (wsub f1 f2) = 1 := by
  unfold goAbs wsub wrap64
  have e1 : (2 : Int) ^ 63 = 9223372036854775808 := by norm_num
  have e2 : (2 : Int) ^ 64 = 18446744073709551616 := by norm_num
  rw [e1, e2]
  rcases hf with h | h <;> rw [h] <;> split_ifs <;> omega

theorem distance_diff_two (r1 r2 : Res) (hs : r1.floorSection = r2.floorSection)
    (hf : r1.floorName - r2.floorName = 2 ∨ r1.floorName - r2.floorName = -2) :
    distance (some r1) (some r2) = 25 := by
  have hne : r1.floorName ≠ r2.floorName := by omega
  have hs2 : ¬ (r1.floorSection ≠ r2.floorSection) := fun hc => hc hs
  simp only [distance, if_pos hne, if_neg hs2]
  rw [goAbs_wsub_diff_two r1.floorName r2.floorName hf]
  unfold wadd wmul wsub wrap64 firstChangeOfFloor firstChangeOfSection subsequentChangeOfFloor
  have e1 : (2 : Int) ^ 63 = 9223372036854775808 := by norm_num
  have e2 : (2 : Int) ^ 64 = 18446744073709551616 := by norm_num
  rw [e1, e2]
  omega

theorem distance_diff_one (r1 r2 : Res) (hs : r1.floorSection = r2.floorSection)
    (hf : r1.floorName - r2.floorName = 1 ∨ r1.floorName - r2.floorName = -1) :
    distance (some r1) (some r2) = 15 := by
  have hne : r1.floorName ≠ r2.floorName := by omega
  have hs2 : ¬ (r1.floorSection ≠ r2.floorSection) := fun hc => hc hs
  simp only [distance, if_pos hne, if_neg hs2]
  rw [goAbs_wsub_diff_one r1.floorName r2.floorName hf]
  unfold wadd wmul wsub wrap64 firstChangeOfFloor firstChangeOfSection subsequentChangeOfFloor
  have e1 : (2 : Int) ^ 63 = 9223372036854775808 := by norm_num
  have e2 : (2 : Int) ^ 64 = 18446744073709551616 := by norm_num
  rw [e1, e2]
  omega

/-- C8: for all rooms with integer floor/section values, `distance` is 0
on identical floor and section, symmetric, maximal (`math.MaxInt`) when
either operand is nil, and rooms two floors apart (equal sections) are
strictly farther than rooms one floor apart (equal sections). -/
theorem distance_properties :
    (∀ r : Res, distance (some r) (some r) = 0) ∧
    (∀ a b : Option Res, distance a b = distance b a) ∧
    (∀ a : Option Res, distance none a = goMaxInt ∧ distance a none = goMaxInt) ∧
    (∀ r1 r2 r3 r4 : Res,
      r1.floorSection = r2.floorSection → r3.floorSection = r4.floorSection →
      (r1.floorName - r2.floorName = 2 ∨ r1.floorName - r2.floorName = -2) →
      (r3.floorName - r4.floorName = 1 ∨ r3.floorName - r4.floorName = -1) →
      distance (some r3) (some r4) < distance (some r1) (some r2)) := by
  refine ⟨distance_self, distance_comm, distance_nil, ?_⟩
  intro r1 r2 r3 r4 hs12 hs34 hf12 hf34
  rw [distance_diff_two r1 r2 hs12 hf12, distance_diff_one r3 r4 hs34 hf34]
  norm_num

/-- C8 witness: concrete rooms — floors 1 and 3 (two apart) are strictly
farther apart than floors 1 and 2 (one apart), sections equal; and the
other parts instantiated at concrete rooms. -/
theorem distance_properties_witness :
    distance (some ⟨"", "", "", 1, 2⟩) (some ⟨"", "", "", 2, 2⟩) <
      distance (some ⟨"", "", "", 1, 2⟩) (some ⟨"", "", "", 3, 2⟩) ∧
    distance (some ⟨"", "", "", 4, 7⟩) (some ⟨"", "", "", 4, 7⟩) = 0 ∧
    distance none (some ⟨"", "", "", 4, 7⟩) = goMaxInt := by
  refine ⟨?_, ?_, ?_⟩
  · exact distance_properties.2.2.2 ⟨"", "", "", 1, 2⟩ ⟨"", "", "", 3, 2⟩
      ⟨"", "", "", 1, 2⟩ ⟨"", "", "", 2, 2⟩ rfl rfl (Or.inr (by norm_num)) (Or.inr (by norm_num))
  · exact distance_properties.1 ⟨"", "", "", 4, 7⟩
  · exact (distance_properties.2.2.1 (some ⟨"", "", "", 4, 7⟩)).1

/-! ## Claim C9 -/

theorem chunkLoop_flatten {α : Type} (res : List α) :
    ∀ (fuel start : Nat), res.length - start ≤ fuel →
      (chunkLoop res fuel start).flatten = res.drop start := by
  intro fuel
  induction fuel with
  | zero =>
    intro start h
    rw [chunkLoop]
    have hle : res.length ≤ start := by omega
    rw [List.drop_eq_nil_of_le hle]
    rfl
  | succ n ih =>
    intro start h
    rw [chunkLoop]
    by_cases hlt : start < res.length
    · rw [if_pos hlt, List.flatten_cons, ih (min (start + 20) res.length) (by omega)]
      have hdd : res.drop (min (start + 20) res.length) =
          (res.drop start).drop (min (start + 20) res.length - start) := by
        rw [List.drop_drop]
        congr 1
        omega
      rw [hdd, List.take_append_drop]
    · rw [if_neg hlt]
      have hle : res.length ≤ start := by omega
      rw [List.drop_eq_nil_of_le hle]
      rfl

theorem chunkLoop_sizes {α : Type} (res : List α) :
    ∀ (fuel start : Nat), ∀ c ∈ chunkLoop res fuel start, c ≠ [] ∧ c.length ≤ 20 := by
  intro fuel
  induction fuel with
  | zero =>
    intro start c hc
    rw [chunkLoop] at hc
    exact absurd hc (List.not_mem_nil c)
  | succ n ih =>
    intro start c hc
    rw [chunkLoop] at hc
    by_cases hlt : start < res.length
    · rw [if_pos hlt] at hc
      rcases List.mem_cons.mp hc with rfl | hmem
      · have hlen : ((res.drop start).take (min (start + 20) res.length - start)).length =
            min (start + 20) res.length - start := by
          rw [List.length_take, List.length_drop]
          omega
        constructor
        · intro hceq
          rw [hceq] at hlen
          simp only [List.length_nil] at hlen
          omega
        · omega
      · exact ih (min (start + 20) res.length) c hmem
    · rw [if_neg hlt] at hc
      exact absurd hc (List.not_mem_nil c)

theorem chunkLoop_full {α : Type} (res : List α) :
    ∀ (fuel start i : Nat), i + 1 < (chunkLoop res fuel start).length →
      ((chunkLoop res fuel start).getD i []).length = 20 := by
  intro fuel
  induction fuel with
  | zero =>
    intro start i hi
    rw [chunkLoop] at hi
    simp at hi
  | succ n ih =>
    intro start i hi
    rw [chunkLoop] at hi ⊢
    by_cases hlt : start < res.length
    · rw [if_pos hlt] at hi ⊢
      cases i with
      | zero =>
        rw [List.length_cons] at hi
        have hrest : chunkLoop res n (min (start + 20) res.length) ≠ [] := by
          intro hr
          rw [hr] at hi
          simp at hi
        have hnext : min (start + 20) res.length < res.length := by
          by_contra hge
          apply hrest
          cases n with
          | zero => rw [chunkLoop]
          | succ m => rw [chunkLoop, if_neg (by omega)]
        rw [List.getD_cons_zero, List.length_take, List.length_drop]
        omega
      | succ j =>
        rw [List.getD_cons_succ]
        apply ih
        rw [List.length_cons] at hi
        omega
    · rw [if_neg hlt] at hi
      simp at hi

theorem fbLoop_eq_processChunks (q : List String → List (String × FBCal))
    (res : List String) :
    ∀ (fuel start : Nat),
      fbLoop q res fuel start = processChunks q (chunkLoop res fuel start) := by
  intro fuel
  induction fuel with
  | zero =>
    intro start
    rw [fbLoop, chunkLoop, processChunks]
  | succ n ih =>
    intro start
    rw [fbLoop, chunkLoop]
    by_cases hlt : start < res.length
    · rw [if_pos hlt, if_pos hlt, processChunks, ih]
    · rw [if_neg hlt, if_neg hlt, processChunks]

theorem calLoop_all_notFound :
    ∀ (errs : List String) (flag : Bool), (∀ e ∈ errs, e = "notFound") →
      calLoop flag errs = Except.ok (!(flag || !errs.isEmpty)) := by
  intro errs
  induction errs with
  | nil =>
    intro flag _
    rw [calLoop]
    simp
  | cons r rs ih =>
    intro flag h
    have hr : r = "notFound" := h r (List.mem_cons_self r rs)
    rw [calLoop, if_pos hr, ih true (fun e he => h e (List.mem_cons_of_mem r he))]
    simp

theorem calLoop_error_of_bad :
    ∀ (errs : List String) (flag : Bool), (∃ e ∈ errs, e ≠ "notFound") →
      ∃ r, calLoop flag errs = Except.error r := by
  intro errs
  induction errs with
  | nil =>
    intro flag h
    rcases h with ⟨e, he, _⟩
    exact absurd he (List.not_mem_nil e)
  | cons a rs ih =>
    intro flag h
    by_cases ha : a = "notFound"
    · rw [calLoop, if_pos ha]
      apply ih true
      rcases h with ⟨e, he, hene⟩
      rcases List.mem_cons.mp he with rfl | hm
      · exact absurd ha hene
      · exact ⟨e, hm, hene⟩
    · rw [calLoop, if_neg ha]
      exact ⟨a, rfl⟩

theorem calLoop_error_mem :
    ∀ (errs : List String) (flag : Bool) (r : String),
      calLoop flag errs = Except.error r → r ∈ errs ∧ r ≠ "notFound" := by
  intro errs
  induction errs with
  | nil =>
    intro flag r h
    rw [calLoop] at h
    exact absurd h (by simp)
  | cons a rs ih =>
    intro flag r h
    rw [calLoop] at h
    by_cases ha : a = "notFound"
    · rw [if_pos ha] at h
      have hih := ih true r h
      exact ⟨List.mem_cons_of_mem a hih.1, hih.2⟩
    · rw [if_neg ha] at h
      cases h
      exact ⟨List.mem_cons_self a rs, ha⟩

/-- C9: the free/busy bulk-fetch loop queries resource emails exactly in
successive chunks of 20 (`fetchFreeBusy` equals processing the `fbChunks`
chunk list, whose concatenation is the full resource list, every chunk
non-empty and of size at most 20, and every chunk except possibly the
last of size exactly 20); for each returned calendar, error reasons that
are all `notFound` cause the resource to be omitted without failure,
no errors cause it to be included, and any other error reason makes the
run fail. -/
theorem freebusy_chunks_and_error_policy (q : List String → List (String × FBCal))
    (res : List String) :
    fetchFreeBusy q res = processChunks q (fbChunks res) ∧
    (fbChunks res).flatten = res ∧
    (∀ c ∈ fbChunks res, c ≠ [] ∧ c.length ≤ 20) ∧
    (∀ i, i + 1 < (fbChunks res).length → ((fbChunks res).getD i []).length = 20) ∧
    (∀ errs : List String,
      (calLoop false errs = Except.ok true ↔ errs = []) ∧
      ((errs ≠ [] ∧ ∀ e ∈ errs, e = "notFound") → calLoop false errs = Except.ok false) ∧
      ((∃ e ∈ errs, e ≠ "notFound") ↔ ∃ r, calLoop false errs = Except.error r)) := by
  refine ⟨fbLoop_eq_processChunks q res res.length 0,
    chunkLoop_flatten res res.length 0 (by omega),
    fun c hc => chunkLoop_sizes res res.length 0 c hc,
    fun i hi => chunkLoop_full res res.length 0 i hi,
    fun errs => ⟨?_, ?_, ?_⟩⟩
  · constructor
    · intro h
      by_cases hnil : errs = []
      · exact hnil
      · exfalso
        by_cases hall : ∀ e ∈ errs, e = "notFound"
        · rw [calLoop_all_notFound errs false hall] at h
          have hne : errs.isEmpty = false := by
            cases errs
            · exact absurd rfl hnil
            · rfl
          rw [hne] at h
          simp at h
        · push_neg at hall
          rcases hall with ⟨e, he, hene⟩
          rcases calLoop_error_of_bad errs false ⟨e, he, hene⟩ with ⟨r, hr⟩
          rw [hr] at h
          exact Except.noConfusion h
    · intro h
      subst h
      rw [calLoop]
      rfl
  · rintro ⟨hne, hall⟩
    rw [calLoop_all_notFound errs false hall]
    have hemp : errs.isEmpty = false := by
      cases errs
      · exact absurd rfl hne
      · rfl
    rw [hemp]
    rfl
  · constructor
    · exact calLoop_error_of_bad errs false
    · rintro ⟨r, hr⟩
      have hm := calLoop_error_mem errs false r hr
      exact ⟨r, hm.1, hm.2⟩

/-- C9 witness: with 45 resource emails the loop issues chunks of sizes
20, 20, 5 (the first chunk has size exactly 20); a calendar whose only
error reason is `notFound` is omitted without failure, and a `forbidden`
reason is fatal. -/
theorem freebusy_chunks_and_error_policy_witness :
    ((fbChunks (List.replicate 45 "r@x")).getD 0 []).length = 20 ∧
    calLoop false ["notFound"] = Except.ok false ∧
    (∃ r, calLoop false ["notFound", "forbidden"] = Except.error r) := by
  refine ⟨?_, ?_, ?_⟩
  · exact (freebusy_chunks_and_error_policy (fun _ => []) (List.replicate 45 "r@x")).2.2.2.1
      0 (by decide)
  · exact ((freebusy_chunks_and_error_policy (fun _ => []) []).2.2.2.2 ["notFound"]).2.1
      ⟨by decide, by decide⟩
  · exact ((freebusy_chunks_and_error_policy (fun _ => []) []).2.2.2.2
      ["notFound", "forbidden"]).2.2.mp ⟨"forbidden", by decide, by decide⟩

/-! ## Claim C2 -/

theorem scanNext_prescan (rooms : List (Option Res)) (i : Nat) :
    scanNext rooms i =
      (if i + 1 < rooms.length then rooms.getD (i + 1) none else none) := by
  unfold scanNext
  by_cases hsome : (rooms.getD (i + 1) none).isSome = true
  · by_cases hlt : i < rooms.length - 1
    · rw [if_pos ⟨hlt, hsome⟩, if_pos (by omega)]
    · rw [if_neg (fun hc => hlt hc.1), if_neg (by omega)]
  · have hnone : rooms.getD (i + 1) none = none := by
      cases hval : rooms.getD (i + 1) none
      · rfl
      · rw [hval] at hsome
        exact absurd rfl hsome
    rw [if_neg (fun hc => hsome hc.2)]
    by_cases hlt : i + 1 < rooms.length
    · rw [if_pos hlt, hnone]
    · rw [if_neg hlt]

theorem scan_trace_aux (rank : Option Res → Option Res → List Nat)
    (freeBusy : String → Option (List Interval))
    (resources : List Res) (events : List Event) (rooms : List (Option Res)) :
    ∀ (is : List Nat) (acc : ScanResult),
      (∀ t ∈ acc.trace,
        rooms.getD t.1 none = none ∧
        t.2.1 = (if 0 < t.1 then rooms.getD (t.1 - 1) none else none) ∧
        t.2.2 = (if t.1 + 1 < rooms.length then rooms.getD (t.1 + 1) none else none)) →
      ∀ t ∈ (is.foldl (scanStep rank freeBusy resources events rooms) acc).trace,
        rooms.getD t.1 none = none ∧
        t.2.1 = (if 0 < t.1 then rooms.getD (t.1 - 1) none else none) ∧
        t.2.2 = (if t.1 + 1 < rooms.length then rooms.getD (t.1 + 1) none else none) := by
  intro is
  induction is with
  | nil => intro acc hacc; exact hacc
  | cons i rest ih =>
    intro acc hacc
    rw [List.foldl_cons]
    apply ih
    intro t ht
    unfold scanStep at ht
    by_cases hroom : (rooms.getD i none).isSome = true
    · rw [if_pos hroom] at ht
      exact hacc t ht
    · rw [if_neg hroom] at ht
      rcases List.mem_append.mp ht with hold | hnew
      · exact hacc t hold
      · rcases List.mem_singleton.mp hnew with rfl
        have hnone : rooms.getD i none = none := by
          cases hval : rooms.getD i none
          · rfl
          · rw [hval] at hroom
            exact absurd rfl hroom
        exact ⟨hnone, rfl, scanNext_prescan rooms i⟩

/-- C2 amended/corrected: during the single forward assignment scan, for
each event still needing a room, both `prevRoom` and `nextRoom` are taken
from the pre-scan state of `roomsImGoingTo`: `prevRoom` is the room the
immediately preceding event had before the scan began (or none), and
`nextRoom` is the room the immediately following event had before the
scan began (or none).  Rooms assigned to earlier events during this same
pass are visible to neither, because the scan never writes assignments
back to `roomsImGoingTo`. -/
theorem scan_neighbors_use_prescan_rooms_only
    (rank : Option Res → Option Res → List Nat)
    (freeBusy : String → Option (List Interval))
    (resources : List Res) (events : List Event) (rooms : List (Option Res)) :
    ∀ t ∈ (runScan rank freeBusy resources events rooms).trace,
      rooms.getD t.1 none = none ∧
      t.2.1 = (if 0 < t.1 then rooms.getD (t.1 - 1) none else none) ∧
      t.2.2 = (if t.1 + 1 < rooms.length then rooms.getD (t.1 + 1) none else none) := by
  intro t ht
  exact scan_trace_aux rank freeBusy resources events rooms
    (List.range rooms.length) ⟨[], []⟩
    (fun t ht => absurd ht (List.not_mem_nil t)) t ht

/-- C2 counterexample: one free room `r1@x` and two chronologically
ordered events, neither with a pre-assigned room.  The scan books `r1@x`
for event 0 during the pass (first booking recorded), yet when processing
event 1 it computes `prevRoom = none` — not the room just assigned to the
immediately preceding event in this same pass, contradicting the claim
that `prevRoom` includes rooms assigned earlier in the pass. -/
theorem scan_prev_ignores_this_pass_assignment :
    runScan (fun _ _ => [0]) (fun e => if e = "r1@x" then some [] else none)
      [⟨"r1@x", "CONFERENCE_ROOM", "R1", 1, 1⟩]
      [{ emptyEvent with startTime := 0, endTime := 10 },
       { emptyEvent with startTime := 20, endTime := 30 }]
      [none, none] =
    ⟨[(0, none, none), (1, none, none)], [(0, "r1@x"), (1, "r1@x")]⟩ := by
  decide

/-- C2 witness: the amended theorem applied at the counterexample input
and the trace entry of event 1: event 1 was unassigned before the scan,
and the `prevRoom`/`nextRoom` it used are the pre-scan entries of the
rooms array (both none). -/
theorem scan_neighbors_use_prescan_rooms_only_witness :
    ([none, none] : List (Option Res)).getD 1 none = none ∧
    ((1, none, none) : Nat × Option Res × Option Res).2.1 =
      (if 0 < (1 : Nat) then ([none, none] : List (Option Res)).getD (1 - 1) none
       else none) ∧
    ((1, none, none) : Nat × Option Res × Option Res).2.2 =
      (if 1 + 1 < ([none, none] : List (Option Res)).length then
        ([none, none] : List (Option Res)).getD (1 + 1) none
       else none) :=
  scan_neighbors_use_prescan_rooms_only (fun _ _ => [0])
    (fun e => if e = "r1@x" then some [] else none)
    [⟨"r1@x", "CONFERENCE_ROOM", "R1", 1, 1⟩]
    [{ emptyEvent with startTime := 0, endTime := 10 },
     { emptyEvent with startTime := 20, endTime := 30 }]
    [none, none] (1, none, none) (by decide)

end Gocal
